import Mathlib

/-!
Verification of the BizSkill ingestion pipeline and hybrid retrieval engine.

The definitions below are a shallow embedding of the backend source:

* `SearchService._reciprocal_rank_fusion` / `SearchService.hybrid_search`
  (`app/services/search_service.py`),
* `LLMSegmentationService.identify_segments` (`app/services/llm_service.py`),
* the worker stage tasks (`app/workers/tasks.py`),
* `reprocess_video` (`app/api/v1/endpoints/videos.py`),
* `fallback_text_search` / `search_segments` (`app/api/v1/endpoints/search.py`),
* `cleanup_duplicates` (`app/workers/maintenance_tasks.py`),
* `EmbeddingService.store_segment_embedding` (`app/services/embedding_service.py`).

Numeric score fields that are Python floats in the source are modelled as
rationals (`ℚ`); machine integers are modelled as `Int`/`Nat`.  Database
tables are modelled as lists of rows, and a Python `dict` is modelled as an
insertion-ordered association list, matching CPython's documented semantics
(assignment to an existing key keeps its position, new keys are appended).
-/

namespace BizSkill

/-! ## Reciprocal rank fusion (`SearchService`) -/

abbrev SegmentId := String

/-- Python dict assignment `scores[key] = v`: overwrite in place if the key is
present, otherwise append at the end. -/
def dictSet : List (SegmentId × ℚ) → SegmentId → ℚ → List (SegmentId × ℚ)
  | [], key, v => [(key, v)]
  | p :: d, key, v => if p.1 = key then (key, v) :: d else p :: dictSet d key v

/-- Python `scores[key]['rrf_score'] += v` when the key is present, else
`scores[key] = v` (the `else` branch of `_reciprocal_rank_fusion`). -/
def dictAdd : List (SegmentId × ℚ) → SegmentId → ℚ → List (SegmentId × ℚ)
  | [], key, v => [(key, v)]
  | p :: d, key, v => if p.1 = key then (p.1, p.2 + v) :: d else p :: dictAdd d key v

/-- Dict lookup (first matching key). -/
def dlookup : List (SegmentId × ℚ) → SegmentId → Option ℚ
  | [], _ => none
  | p :: d, x => if p.1 = x then some p.2 else dlookup d x

/-- First loop of `_reciprocal_rank_fusion`: `for rank, result in
enumerate(semantic_results): scores[id] = semantic_weight / (k + rank + 1)`.
The counter `r` carries the current 0-indexed rank. -/
def semanticPass (w : ℚ) (k : ℕ) : List SegmentId → ℕ → List (SegmentId × ℚ) → List (SegmentId × ℚ)
  | [], _, d => d
  | x :: rest, r, d => semanticPass w k rest (r + 1) (dictSet d x (w / ((k : ℚ) + (r : ℚ) + 1)))

/-- Second loop of `_reciprocal_rank_fusion`: keyword contributions are added
to an existing entry, or a new entry is created. -/
def keywordPass (w : ℚ) (k : ℕ) : List SegmentId → ℕ → List (SegmentId × ℚ) → List (SegmentId × ℚ)
  | [], _, d => d
  | x :: rest, r, d => keywordPass w k rest (r + 1) (dictAdd d x (w / ((k : ℚ) + (r : ℚ) + 1)))

/-- Ordering used by `sorted(scores.values(), key=lambda x: x['rrf_score'],
reverse=True)`: descending fused score. -/
def rrfGE (a b : SegmentId × ℚ) : Prop := b.2 ≤ a.2

instance : DecidableRel rrfGE :=
  fun a b => inferInstanceAs (Decidable (b.2 ≤ a.2))

instance : IsTotal (SegmentId × ℚ) rrfGE :=
  ⟨fun a b => le_total b.2 a.2⟩

instance : IsTrans (SegmentId × ℚ) rrfGE :=
  ⟨fun _ _ _ h1 h2 => le_trans h2 h1⟩

/-- `SearchService._reciprocal_rank_fusion`: build the score dict from the two
ranked lists, then sort descending by fused score (Python `sorted` is stable,
as is insertion sort). -/
def reciprocal_rank_fusion (semantic keyword : List SegmentId) (wS wK : ℚ) (k : ℕ) :
    List (SegmentId × ℚ) :=
  List.insertionSort rrfGE (keywordPass wK k keyword 0 (semanticPass wS k semantic 0 []))

/-- Fusion step of `SearchService.hybrid_search` with the default weights
0.7 / 0.3 and `k = 60`, truncated to `limit` (`merged[:limit]`). -/
def hybrid_search (semantic keyword : List SegmentId) (limit : ℕ) : List (SegmentId × ℚ) :=
  (reciprocal_rank_fusion semantic keyword (7/10) (3/10) 60).take limit

/-- The 0-indexed rank of `x` in a ranked list (first occurrence), used to
state the claimed RRF formula. -/
def rankOf : List SegmentId → SegmentId → Option ℕ
  | [], _ => none
  | y :: rest, x => if y = x then some 0 else (rankOf rest x).map (· + 1)

/-- Claimed contribution of one ranked list: `w / (k + r + 1)` for a result at
0-indexed rank `r`, and `0` for an absent segment. -/
def listContribution (w : ℚ) (k : ℕ) (L : List SegmentId) (x : SegmentId) : ℚ :=
  match rankOf L x with
  | some r => w / ((k : ℚ) + (r : ℚ) + 1)
  | none => 0

/-- Claimed fused RRF score with default weights 0.7 / 0.3 and `k = 60`: the
sum of the contributions across both lists. -/
def rrfScore (semantic keyword : List SegmentId) (x : SegmentId) : ℚ :=
  listContribution (7/10) 60 semantic x + listContribution (3/10) 60 keyword x

/-! ## Segment identification (`LLMSegmentationService.identify_segments`) -/

/-- `SegmentInfo` model from `llm_service.py` (times are `int` seconds). -/
structure SegmentInfo where
  start_time : Int
  end_time : Int
  topic : String
  context : String
deriving DecidableEq, Repr

/-- Configured duration bounds (`app/core/config.py`). -/
def min_segment_duration_seconds : Int := 30

def max_segment_duration_seconds : Int := 300

/-- Validation in `identify_segments`: `duration >= settings.min_... and
duration <= settings.max_...`. -/
def acceptCandidate (s : SegmentInfo) : Bool :=
  decide (min_segment_duration_seconds ≤ s.end_time - s.start_time) &&
  decide (s.end_time - s.start_time ≤ max_segment_duration_seconds)

/-- `identify_segments` after the per-chunk LLM calls: each chunk's call either
fails (`none`, caught and skipped with `continue`) or yields candidate
segments, of which only those passing `acceptCandidate` are appended to
`all_segments`. -/
def identify_segments (chunkResults : List (Option (List SegmentInfo))) : List SegmentInfo :=
  chunkResults.foldl
    (fun acc res =>
      match res with
      | none => acc
      | some segs => acc ++ segs.filter acceptCandidate)
    []

/-! ## Corpus store rows (`app/db/models`) -/

/-- Video status enum (`VideoStatus` in `video.py`). -/
inductive VStatus
  | pending
  | downloading
  | transcribing
  | segmenting
  | embedding
  | indexed
  | failed
  | removed
deriving DecidableEq, Repr

/-- Segment row; `seg_id` stands for the generated uuid primary key and
`created_at` for the insertion timestamp. -/
structure SegmentRow where
  seg_id : ℕ
  video_id : String
  start_time : Int
  end_time : Int
  generated_title : String
  summary_text : String
  relevance_score : Int
  transcript_chunk : String
  embedding_id : Option String
  created_at : ℕ
deriving DecidableEq, Repr

/-- Category row (`category.py`); names are unique in the schema. -/
structure CategoryRow where
  cat_id : ℕ
  name : String
  slug : String
deriving DecidableEq, Repr

/-- Association row (`SegmentCategory`). -/
structure SegmentCategoryRow where
  segment_id : ℕ
  category_id : ℕ
deriving DecidableEq, Repr

/-- Insight capability result (`InsightResult` in `llm_service.py`). -/
structure InsightResult where
  generated_title : String
  summary_text : String
  key_takeaways : List String
  relevance_score : Int
  categories : List String
deriving DecidableEq, Repr

/-- Relational state touched by the insight stage.  `next_id` models uuid
freshness for new rows and `clock` the advancing `created_at` timestamps. -/
structure Db where
  segments : List SegmentRow
  categories : List CategoryRow
  segment_categories : List SegmentCategoryRow
  next_id : ℕ
  clock : ℕ
deriving DecidableEq, Repr

/-! ## Insight stage (`generate_insights` in `app/workers/tasks.py`) -/

/-- `db.query(Category).filter(Category.name == cat_name).first()`. -/
def findCategory : List CategoryRow → String → Option CategoryRow
  | [], _ => none
  | c :: rest, label => if c.name = label then some c else findCategory rest label

/-- Category-linking loop of `generate_insights`: for each returned label, link
the segment when an exact-name Category exists, else do nothing. -/
def linkCategories (cats : List CategoryRow) (segId : ℕ) (labels : List String) :
    List SegmentCategoryRow :=
  labels.filterMap fun label =>
    (findCategory cats label).map fun c => ⟨segId, c.cat_id⟩

/-- Loop body of `generate_insights` for one candidate window: extract the
transcript slice (`sliceOf`), call the insight capability (`insightOf`),
insert one Segment row (transcript slice truncated to 2000 characters) and
link resolved categories. -/
def insightStep (insightOf : SegmentInfo → InsightResult) (sliceOf : SegmentInfo → String)
    (vid : String) (db : Db) (cand : SegmentInfo) : Db :=
  let ins := insightOf cand
  let seg : SegmentRow :=
    { seg_id := db.next_id
      video_id := vid
      start_time := cand.start_time
      end_time := cand.end_time
      generated_title := ins.generated_title
      summary_text := ins.summary_text
      relevance_score := ins.relevance_score
      transcript_chunk := (sliceOf cand).take 2000
      embedding_id := none
      created_at := db.clock }
  { db with
    segments := db.segments ++ [seg]
    segment_categories :=
      db.segment_categories ++ linkCategories db.categories db.next_id ins.categories
    next_id := db.next_id + 1
    clock := db.clock + 1 }

/-- `generate_insights`: the per-candidate loop over the accepted candidate
list.  The capability calls are modelled as function parameters. -/
def generate_insights (insightOf : SegmentInfo → InsightResult)
    (sliceOf : SegmentInfo → String) (vid : String)
    (cands : List SegmentInfo) (db : Db) : Db :=
  cands.foldl (insightStep insightOf sliceOf vid) db

/-! ## Embedding stage (`create_embeddings`, `EmbeddingService`) -/

/-- Vector-index point (Qdrant `PointStruct`); `point_id` stands for the
freshly generated uuid. -/
structure VectorPoint where
  point_id : ℕ
  segment_id : ℕ
  video_id : String
deriving DecidableEq, Repr

/-- Vector index state; `next_point_id` models `uuid.uuid4()` freshness. -/
structure VectorIndex where
  points : List VectorPoint
  next_point_id : ℕ
deriving DecidableEq, Repr

/-- `EmbeddingService.store_segment_embedding`: generate a fresh point id and
upsert one point (a fresh id never collides, so the upsert inserts); returns
the new point id. -/
def store_segment_embedding (idx : VectorIndex) (segId : ℕ) (vid : String) :
    VectorIndex × ℕ :=
  (⟨idx.points ++ [⟨idx.next_point_id, segId, vid⟩], idx.next_point_id + 1⟩,
   idx.next_point_id)

/-- Write-back `segment.embedding_id = point_id`. -/
def setEmbedding (segs : List SegmentRow) (segId : ℕ) (pid : ℕ) : List SegmentRow :=
  segs.map fun s =>
    if s.seg_id = segId then { s with embedding_id := some (toString pid) } else s

/-- Loop body of `create_embeddings` for one stage-4 segment id: skip it if
the row no longer exists, otherwise store a (fresh) embedding point and record
the point id on the row.  Rows that already carry an `embedding_id` are not
skipped. -/
def embedStep (vid : String) (st : Db × VectorIndex) (segId : ℕ) : Db × VectorIndex :=
  if st.1.segments.any (fun s => decide (s.seg_id = segId)) then
    let next := store_segment_embedding st.2 segId vid
    ({ st.1 with segments := setEmbedding st.1.segments segId next.2 }, next.1)
  else st

/-- `create_embeddings` stage body: the loop over the stage-4 segment ids. -/
def create_embeddings (segIds : List ℕ) (vid : String) (st : Db × VectorIndex) :
    Db × VectorIndex :=
  segIds.foldl (embedStep vid) st

/-! ## Video rows and stage failure handling (`app/workers/tasks.py`) -/

/-- Video row fields relevant to stage bookkeeping. -/
structure VideoRow where
  vid : String
  youtube_id : String
  status : VStatus
  transcript : Option String
  processing_error : Option String
  processed_at : Option ℕ
deriving DecidableEq, Repr

/-- Common failure handler of stages 1-5: set status `failed` and write a
human-readable `processing_error` (the stage's message followed by the
exception text), before re-raising via `self.retry`. -/
def stage_fail (label : String) (e : String) (v : VideoRow) : VideoRow :=
  { v with status := .failed, processing_error := some (label ++ e) }

/-- `download_audio` effect on the Video row.  The work (yt-dlp download) is
an `Except` parameter; the returned flag records whether the exception was
re-raised to the task queue (`raise self.retry(exc=e)`). -/
def download_audio (work : Except String String) (v : VideoRow) : VideoRow × Bool :=
  match work with
  | .ok _ => ({ v with status := .downloading }, false)
  | .error e => (stage_fail "Audio download failed: " e { v with status := .downloading }, true)

/-- Transcription capability output (full text; spans omitted). -/
structure TranscriptResult where
  full_text : String
deriving DecidableEq, Repr

/-- `transcribe_audio` as its sequence of committed Video states: the stage
first commits `status := transcribing`, then (second commit) writes the
transcript on success or the failure fields on error.  The flag records
whether the exception was re-raised. -/
def transcribe_audio (work : Except String TranscriptResult) (v : VideoRow) :
    List VideoRow × Bool :=
  let v1 := { v with status := VStatus.transcribing }
  match work with
  | .ok t => ([v1, { v1 with transcript := some t.full_text }], false)
  | .error e => ([v1, stage_fail "Transcription failed: " e v1], true)

/-- `segment_transcript` effect on the Video row. -/
def segment_transcript (work : Except String (List SegmentInfo)) (v : VideoRow) :
    VideoRow × Bool :=
  match work with
  | .ok _ => ({ v with status := .segmenting }, false)
  | .error e => (stage_fail "Segmentation failed: " e { v with status := .segmenting }, true)

/-- `generate_insights` effect on the Video row (this stage sets no
in-progress status; on error the insert transaction is rolled back and the
failure fields are committed). -/
def generate_insights_task (work : Except String Unit) (v : VideoRow) : VideoRow × Bool :=
  match work with
  | .ok _ => (v, false)
  | .error e => (stage_fail "Insight generation failed: " e v, true)

/-- `create_embeddings` effect on the Video row. -/
def create_embeddings_task (work : Except String Unit) (v : VideoRow) : VideoRow × Bool :=
  match work with
  | .ok _ => ({ v with status := .embedding }, false)
  | .error e => (stage_fail "Embedding failed: " e { v with status := .embedding }, true)

/-- `cleanup_and_finalize` (stage 6): on success set `indexed`, stamp
`processed_at` and clear the error; on any exception the handler only logs -
the Video row is left untouched and nothing is re-raised (the task has no
`self.retry` call and no `max_retries`). -/
def cleanup_and_finalize (work : Except String Unit) (now : ℕ) (v : VideoRow) :
    VideoRow × Bool :=
  match work with
  | .ok _ => ({ v with status := .indexed, processed_at := some now,
                       processing_error := none }, false)
  | .error _ => (v, false)

/-- Task-queue retry driver: attempts are delivered while the task re-raises
and retries remain; `retriesLeft` is the configured attempt ceiling
(`max_retries`).  The final flag reports whether the last exception escaped
(ceiling exhausted). -/
def retryDrive {α : Type} (stage : α → VideoRow → VideoRow × Bool) :
    ℕ → List α → VideoRow → VideoRow × Bool
  | _, [], v => (v, false)
  | retriesLeft, w :: ws, v =>
    let step := stage w v
    if step.2 then
      match retriesLeft with
      | 0 => (step.1, true)
      | n + 1 => retryDrive stage n ws step.1
    else (step.1, false)

/-! ## Reset for retry (`reprocess_video` in `endpoints/videos.py`) -/

/-- Application state seen by the reset endpoint: videos, segments, and the
queue of enqueued `process_video` tasks. -/
structure AppDb where
  videos : List VideoRow
  segments : List SegmentRow
  queue : List String
deriving DecidableEq, Repr

/-- `db.query(Video).filter(Video.id == video_id).first()`. -/
def findVideo : List VideoRow → String → Option VideoRow
  | [], _ => none
  | w :: rest, x => if w.vid = x then some w else findVideo rest x

/-- `reprocess_video`: 404 when the video is missing; otherwise set status
back to `pending` and enqueue `process_video` from stage 1.  The source also
assigns `video.error_message = None`, but `error_message` is not a mapped
column of `Video` (the column is `processing_error`), so no other persisted
field changes; in particular prior Segment rows are not touched. -/
def reprocess_video (db : AppDb) (videoId : String) : Option AppDb :=
  match findVideo db.videos videoId with
  | none => none
  | some _ =>
    some
      { db with
        videos := db.videos.map fun w =>
          if w.vid = videoId then { w with status := VStatus.pending } else w
        queue := db.queue ++ [videoId] }

/-! ## Fallback text search (`endpoints/search.py`) -/

/-- Joined row over Segment/Video/Channel/Category as read by
`fallback_text_search`.  `relevance_score` holds the 1-10 integer produced by
the insight stage. -/
structure DbSegmentView where
  seg_id : ℕ
  generated_title : String
  summary_text : String
  transcript_chunk : String
  relevance_score : Int
  view_count : ℕ
  video_status : VStatus
  category_slugs : List String
deriving DecidableEq, Repr

/-- One search response entry; `search_method` is `none` when the source dict
carries no `search_method` key. -/
structure SearchResult where
  result_id : ℕ
  search_score : ℚ
  search_method : Option String
deriving DecidableEq, Repr

/-- Lowercasing, written over the character list (`str.lower()` /
`func.lower`). -/
def lowerChars (s : String) : List Char :=
  s.data.map Char.toLower

/-- `query.lower().split()`: lowercase, split on whitespace, drop empty
tokens. -/
def queryTerms (q : String) : List String :=
  (((lowerChars q).splitOnP fun c => c == ' ').map fun l => String.mk l).filter
    fun t => !t.isEmpty

/-- Case-insensitive substring test modelling `func.lower(col).like(f"%{t}%")`
for an already-lowercased term `t`. -/
def likeContains (hay term : String) : Bool :=
  decide (List.IsInfix term.data (lowerChars hay))

/-- One `or_(...)` condition of the fallback: the term occurs in the title,
the summary or the transcript chunk. -/
def termMatches (s : DbSegmentView) (term : String) : Bool :=
  likeContains s.generated_title term || likeContains s.summary_text term ||
    likeContains s.transcript_chunk term

/-- Row filter of `fallback_text_search`: indexed video, relevance at least
`min_relevance`, the term disjunction (skipped when the tokenized query is
empty, matching `if conditions:`), and the optional category-slug join. -/
def fallbackKeep (terms : List String) (category : Option String)
    (min_relevance : Int) (s : DbSegmentView) : Bool :=
  decide (s.video_status = VStatus.indexed) &&
  decide (min_relevance ≤ s.relevance_score) &&
  (terms.isEmpty || terms.any (termMatches s)) &&
  (match category with
   | none => true
   | some c => s.category_slugs.contains c)

/-- `order_by(relevance_score.desc(), view_count.desc())`. -/
def fallbackOrder (a b : DbSegmentView) : Prop :=
  b.relevance_score < a.relevance_score ∨
    (a.relevance_score = b.relevance_score ∧ b.view_count ≤ a.view_count)

instance : DecidableRel fallbackOrder :=
  fun a b =>
    inferInstanceAs (Decidable (b.relevance_score < a.relevance_score ∨
      (a.relevance_score = b.relevance_score ∧ b.view_count ≤ a.view_count)))

/-- `fallback_text_search`: tokenize the lowercased query, filter, order,
truncate to `limit`, then attach the purely positional score
`max(0.9 - 0.05 * i, 0.1)` and the `"text_fallback"` method label. -/
def fallback_text_search (db : List DbSegmentView) (query : String)
    (category : Option String) (min_relevance : Int) (limit : ℕ) : List SearchResult :=
  let terms := queryTerms query
  let kept := db.filter (fallbackKeep terms category min_relevance)
  let ordered := (List.insertionSort fallbackOrder kept).take limit
  ordered.enum.map fun p =>
    { result_id := p.2.seg_id
      search_score := max ((9 : ℚ)/10 - (p.1 : ℚ) * (5/100)) (1/10)
      search_method := some "text_fallback" }

/-- `SearchService._enrich_results` as far as result labelling is concerned:
fused ids whose row is missing are silently skipped, and the assembled dict
has no `search_method` key. -/
def enrich_results (available : SegmentId → Bool) (fused : List (SegmentId × ℚ))
    (idOf : SegmentId → ℕ) : List SearchResult :=
  fused.filterMap fun p =>
    if available p.1 then
      some { result_id := idOf p.1, search_score := p.2, search_method := none }
    else none

/-- `search_segments` endpoint: the hybrid path is attempted first; if it
raises anywhere (embedding capability, vector store), the handler catches the
exception and answers with `fallback_text_search` instead of propagating. -/
def search_segments (hybridOutcome : Except String (List SearchResult))
    (db : List DbSegmentView) (query : String) (category : Option String)
    (min_relevance : Int) (limit : ℕ) : List SearchResult :=
  match hybridOutcome with
  | .ok rs => rs
  | .error _ => fallback_text_search db query category min_relevance limit

/-! ## Maintenance de-duplication (`cleanup_duplicates`) -/

/-- Grouping key of the duplicate-segment sweep. -/
def segKey (s : SegmentRow) : String × Int × Int :=
  (s.video_id, s.start_time, s.end_time)

/-- `order_by(Segment.created_at)`. -/
def createdLE (a b : SegmentRow) : Prop := a.created_at ≤ b.created_at

instance : DecidableRel createdLE :=
  fun a b => inferInstanceAs (Decidable (a.created_at ≤ b.created_at))

instance : IsTotal SegmentRow createdLE :=
  ⟨fun a b => Nat.le_total a.created_at b.created_at⟩

instance : IsTrans SegmentRow createdLE :=
  ⟨fun _ _ _ h1 h2 => Nat.le_trans h1 h2⟩

/-- All rows sharing a given `(video_id, start_time, end_time)` key. -/
def groupFor (segs : List SegmentRow) (k : String × Int × Int) : List SegmentRow :=
  segs.filter fun s => decide (segKey s = k)

/-- Keys reported by the `GROUP BY ... HAVING count > 1` query. -/
def duplicateKeys (segs : List SegmentRow) : List (String × Int × Int) :=
  ((segs.map segKey).dedup).filter fun k => decide (1 < (groupFor segs k).length)

/-- Within one duplicate group, the sweep orders by `created_at`, keeps the
first row and deletes the rest (`segments[1:]`). -/
def deletedInGroup (segs : List SegmentRow) (k : String × Int × Int) : List SegmentRow :=
  (List.insertionSort createdLE (groupFor segs k)).tail

/-- Segment part of `cleanup_duplicates`: delete every non-first row of each
duplicate group, and delete the vector-index point of each deleted row that
carries an `embedding_id`.  Returns the surviving rows and index points. -/
def cleanup_duplicates (segs : List SegmentRow) (index : List String) :
    List SegmentRow × List String :=
  let deletedIds := (duplicateKeys segs).flatMap fun k => (deletedInGroup segs k).map (·.seg_id)
  let deletedPoints :=
    (duplicateKeys segs).flatMap fun k => (deletedInGroup segs k).filterMap (·.embedding_id)
  (segs.filter fun s => decide (s.seg_id ∉ deletedIds),
   index.filter fun p => decide (p ∉ deletedPoints))

/-! ## Concrete fixtures used to instantiate the theorems -/

def exampleInsight : InsightResult :=
  ⟨"T", "S", ["a", "b", "c"], 8, ["Leadership"]⟩

def exampleInsightOf : SegmentInfo → InsightResult := fun _ => exampleInsight

def exampleSliceOf : SegmentInfo → String := fun _ => "slice"

def exampleCandidate : SegmentInfo := ⟨30, 120, "t2", "c2"⟩

def exampleDb : Db := ⟨[], [⟨1, "Leadership", "leadership"⟩], [], 0, 0⟩

def exampleEmbeddingVideo : VideoRow := ⟨"v1", "yt1", .embedding, some "text", none, none⟩

def exampleDownloadedVideo : VideoRow := ⟨"v1", "yt1", .downloading, none, none, none⟩

def exampleFailedVideo : VideoRow :=
  ⟨"v1", "yt1", .failed, none, some "Embedding failed: boom", none⟩

def exampleSegmentRow : SegmentRow := ⟨1, "v1", 0, 90, "T", "S", 8, "tc", some "p1", 2⟩

def exampleSegmentRow2 : SegmentRow := ⟨2, "v1", 0, 90, "T2", "S2", 7, "tc2", some "p2", 1⟩

def exampleAppDb : AppDb := ⟨[exampleFailedVideo], [exampleSegmentRow], []⟩

def exampleView : DbSegmentView := ⟨1, "Negotiate", "s", "tc", 8, 5, .indexed, []⟩

/-! # Theorems -/

/-! ## Helper lemmas -/

theorem identify_segments_foldl (crs : List (Option (List SegmentInfo)))
    (acc : List SegmentInfo) :
    crs.foldl
      (fun acc res =>
        match res with
        | none => acc
        | some segs => acc ++ segs.filter acceptCandidate)
      acc
      = acc ++ identify_segments crs := by
  induction crs generalizing acc with
  | nil => simp [identify_segments]
  | cons hd tl ih =>
    cases hd with
    | none =>
      simpa [identify_segments, List.foldl_cons] using ih acc
    | some segs =>
      simp only [identify_segments, List.foldl_cons, List.nil_append]
      rw [ih, ih (segs.filter acceptCandidate)]
      simp [List.append_assoc]

theorem mem_identify_segments (crs : List (Option (List SegmentInfo))) (c : SegmentInfo) :
    c ∈ identify_segments crs ↔
      ∃ segs, some segs ∈ crs ∧ c ∈ segs ∧ acceptCandidate c = true := by
  induction crs with
  | nil => simp [identify_segments]
  | cons hd tl ih =>
    have hstep : identify_segments (hd :: tl)
        = (match hd with
            | none => ([] : List SegmentInfo)
            | some segs => segs.filter acceptCandidate) ++ identify_segments tl := by
      cases hd with
      | none => exact (List.nil_append _).symm ▸ identify_segments_foldl tl []
      | some segs => exact identify_segments_foldl tl (segs.filter acceptCandidate)
    cases hd with
    | none =>
      rw [hstep]
      simp only [List.nil_append, ih]
      constructor
      · rintro ⟨segs, hmem, hc, hacc⟩
        exact ⟨segs, List.mem_cons_of_mem _ hmem, hc, hacc⟩
      · rintro ⟨segs, hmem, hc, hacc⟩
        rcases List.mem_cons.mp hmem with habs | hmem'
        · exact absurd habs (by simp)
        · exact ⟨segs, hmem', hc, hacc⟩
    | some segs =>
      rw [hstep]
      simp only [List.mem_append, List.mem_filter, ih]
      constructor
      · rintro (⟨hc, hacc⟩ | ⟨segs', hmem, hc, hacc⟩)
        · exact ⟨segs, List.mem_cons_self _ _, hc, hacc⟩
        · exact ⟨segs', List.mem_cons_of_mem _ hmem, hc, hacc⟩
      · rintro ⟨segs', hmem, hc, hacc⟩
        rcases List.mem_cons.mp hmem with heq | hmem'
        · exact Or.inl ⟨by injection heq with h; exact h ▸ hc, hacc⟩
        · exact Or.inr ⟨segs', hmem', hc, hacc⟩

theorem generate_insights_segments_mem (insightOf : SegmentInfo → InsightResult)
    (sliceOf : SegmentInfo → String) (vid : String) (cands : List SegmentInfo) (db : Db) :
    ∀ row ∈ (generate_insights insightOf sliceOf vid cands db).segments,
      row ∈ db.segments ∨
        ∃ cand ∈ cands, row.start_time = cand.start_time ∧ row.end_time = cand.end_time ∧
          row.video_id = vid := by
  induction cands generalizing db with
  | nil => exact fun row h => Or.inl h
  | cons cand tl ih =>
    intro row h
    rcases ih _ row h with h' | ⟨cand', hc', h1, h2, h3⟩
    · rcases List.mem_append.mp h' with h'' | h''
      · exact Or.inl h''
      · rcases List.mem_singleton.mp h'' with rfl
        exact Or.inr ⟨cand, List.mem_cons_self _ _, rfl, rfl, rfl⟩
    · exact Or.inr ⟨cand', List.mem_cons_of_mem _ hc', h1, h2, h3⟩

/-! ## C2: duration filter -/

/-- C2: a candidate window is accepted by `identify_segments` exactly when it
comes from a successful chunk and its duration lies inside the closed interval
`[min_segment_duration_seconds, max_segment_duration_seconds]`; out-of-bounds
candidates are dropped without error or retry (the stage is a total function
of the chunk results), and every Segment row persisted by the insight stage
from the accepted list keeps its duration inside the bounds. -/
theorem identify_segments_duration_filter (crs : List (Option (List SegmentInfo)))
    (c : SegmentInfo) :
    (c ∈ identify_segments crs ↔
      (∃ segs, some segs ∈ crs ∧ c ∈ segs) ∧
        min_segment_duration_seconds ≤ c.end_time - c.start_time ∧
        c.end_time - c.start_time ≤ max_segment_duration_seconds)
    ∧ ∀ (insightOf : SegmentInfo → InsightResult) (sliceOf : SegmentInfo → String)
        (vid : String) (db : Db),
        ∀ row ∈ (generate_insights insightOf sliceOf vid (identify_segments crs) db).segments,
          row ∈ db.segments ∨
            (min_segment_duration_seconds ≤ row.end_time - row.start_time ∧
              row.end_time - row.start_time ≤ max_segment_duration_seconds) := by
  have hacc : ∀ d : SegmentInfo, acceptCandidate d = true ↔
      min_segment_duration_seconds ≤ d.end_time - d.start_time ∧
        d.end_time - d.start_time ≤ max_segment_duration_seconds := by
    intro d
    simp [acceptCandidate]
  constructor
  · rw [mem_identify_segments]
    constructor
    · rintro ⟨segs, hmem, hc, haccept⟩
      exact ⟨⟨segs, hmem, hc⟩, (hacc c).mp haccept⟩
    · rintro ⟨⟨segs, hmem, hc⟩, hbounds⟩
      exact ⟨segs, hmem, hc, (hacc c).mpr hbounds⟩
  · intro insightOf sliceOf vid db row hrow
    rcases generate_insights_segments_mem insightOf sliceOf vid _ db row hrow with h | h
    · exact Or.inl h
    · obtain ⟨cand, hcand, h1, h2, _⟩ := h
      obtain ⟨_, _, _, haccept⟩ := (mem_identify_segments crs cand).mp hcand
      refine Or.inr ?_
      rw [h1, h2]
      exact (hacc cand).mp haccept

theorem identify_segments_duration_filter_witness :
    exampleCandidate ∈ identify_segments [some [⟨0, 30, "t", "c"⟩, exampleCandidate]] :=
  (identify_segments_duration_filter [some [⟨0, 30, "t", "c"⟩, exampleCandidate]]
      exampleCandidate).1.mpr
    ⟨⟨[⟨0, 30, "t", "c"⟩, exampleCandidate], by decide, by decide⟩, by decide, by decide⟩

/-! ## C3: degradation to labelled text fallback -/

/-- C3: when the vector path raises, the search endpoint catches the exception
and answers with the text-only fallback (nothing propagates to the caller);
every degraded result carries the distinct label `search_method =
"text_fallback"`, while hybrid-path results built by `_enrich_results` carry
no such label. -/
theorem search_segments_degradation (e : String) (db : List DbSegmentView) (q : String)
    (cat : Option String) (minrel : Int) (lim : ℕ) :
    search_segments (.error e) db q cat minrel lim
        = fallback_text_search db q cat minrel lim
    ∧ (∀ r ∈ search_segments (.error e) db q cat minrel lim,
        r.search_method = some "text_fallback")
    ∧ (∀ (avail : SegmentId → Bool) (fused : List (SegmentId × ℚ)) (idOf : SegmentId → ℕ),
        ∀ r ∈ enrich_results avail fused idOf, r.search_method = none) := by
  refine ⟨rfl, ?_, ?_⟩
  · intro r hr
    simp only [search_segments, fallback_text_search, List.mem_map] at hr
    obtain ⟨p, _, rfl⟩ := hr
    rfl
  · intro avail fused idOf r hr
    simp only [enrich_results, List.mem_filterMap] at hr
    obtain ⟨p, _, hp⟩ := hr
    cases hab : avail p.1 <;> simp [hab] at hp
    exact hp ▸ rfl

theorem search_segments_degradation_witness :
    ({ result_id := 7, search_score := 0, search_method := none } : SearchResult).search_method
      = none :=
  (search_segments_degradation "boom" [] "q" none 1 20).2.2 (fun _ => true) [("a", 0)]
    (fun _ => 7) _ (by decide)

/-! ## C9: fallback scores are purely positional -/

/-- C9: in text-fallback mode the `i`-th result's score is purely positional,
`max(0.9 - 0.05 * i, 0.1)`, and every result carries `search_method =
"text_fallback"`. -/
theorem fallback_text_search_score (db : List DbSegmentView) (q : String)
    (cat : Option String) (minrel : Int) (lim : ℕ) (i : ℕ)
    (h : i < (fallback_text_search db q cat minrel lim).length) :
    ((fallback_text_search db q cat minrel lim).get ⟨i, h⟩).search_score
        = max ((9 : ℚ)/10 - (i : ℚ) * (5/100)) (1/10)
    ∧ ((fallback_text_search db q cat minrel lim).get ⟨i, h⟩).search_method
        = some "text_fallback" := by
  constructor <;>
    simp [fallback_text_search, List.get_eq_getElem, List.getElem_map, List.getElem_enum]

theorem fallback_text_search_score_witness :
    ∃ h : 0 < (fallback_text_search [exampleView] "NeGo" none 1 20).length,
      ((fallback_text_search [exampleView] "NeGo" none 1 20).get ⟨0, h⟩).search_score
          = max ((9 : ℚ)/10 - ((0 : ℕ) : ℚ) * (5/100)) (1/10)
        ∧ ((fallback_text_search [exampleView] "NeGo" none 1 20).get ⟨0, h⟩).search_method
          = some "text_fallback" :=
  ⟨by decide, fallback_text_search_score [exampleView] "NeGo" none 1 20 0 (by decide)⟩

/-! ## C8: exact-name category resolution -/

theorem findCategory_mem (cats : List CategoryRow) (label : String) (c : CategoryRow)
    (h : findCategory cats label = some c) : c ∈ cats ∧ c.name = label := by
  induction cats with
  | nil => exact absurd h (by simp [findCategory])
  | cons hd tl ih =>
    rw [findCategory] at h
    by_cases hn : hd.name = label
    · rw [if_pos hn] at h
      cases h
      exact ⟨List.mem_cons_self _ _, hn⟩
    · rw [if_neg hn] at h
      obtain ⟨hmem, hname⟩ := ih h
      exact ⟨List.mem_cons_of_mem _ hmem, hname⟩

theorem findCategory_eq_none (cats : List CategoryRow) (label : String)
    (h : ∀ c ∈ cats, c.name ≠ label) : findCategory cats label = none := by
  induction cats with
  | nil => rfl
  | cons hd tl ih =>
    rw [findCategory, if_neg (h hd (List.mem_cons_self _ _))]
    exact ih fun c hc => h c (List.mem_cons_of_mem _ hc)

theorem generate_insights_categories_eq (insightOf : SegmentInfo → InsightResult)
    (sliceOf : SegmentInfo → String) (vid : String) (cands : List SegmentInfo) (db : Db) :
    (generate_insights insightOf sliceOf vid cands db).categories = db.categories := by
  induction cands generalizing db with
  | nil => rfl
  | cons cand tl ih => exact ih _

theorem generate_insights_links_mem (insightOf : SegmentInfo → InsightResult)
    (sliceOf : SegmentInfo → String) (vid : String) (cands : List SegmentInfo) (db : Db) :
    ∀ link ∈ (generate_insights insightOf sliceOf vid cands db).segment_categories,
      link ∈ db.segment_categories ∨
        ∃ c ∈ db.categories, link.category_id = c.cat_id ∧
          ∃ cand ∈ cands, c.name ∈ (insightOf cand).categories := by
  induction cands generalizing db with
  | nil => exact fun link h => Or.inl h
  | cons cand tl ih =>
    intro link h
    rcases ih _ link h with h' | ⟨c, hc, hid, cand', hc', hname⟩
    · rcases List.mem_append.mp h' with h'' | h''
      · exact Or.inl h''
      · simp only [linkCategories, List.mem_filterMap, Option.map_eq_some'] at h''
        obtain ⟨label, hlabel, c, hfind, rfl⟩ := h''
        obtain ⟨hmem, hname⟩ := findCategory_mem _ _ _ hfind
        exact Or.inr ⟨c, hmem, rfl, cand, List.mem_cons_self _ _, hname ▸ hlabel⟩
    · exact Or.inr ⟨c, hc, hid, cand', List.mem_cons_of_mem _ hc', hname⟩

/-- C8: the insight stage links a Segment only to Category rows whose name
exactly equals a label returned by the insight capability; it never creates a
Category row, and a label with no exact-name match contributes no link and no
failure (`linkCategories` is total and yields nothing for it). -/
theorem generate_insights_category_exact_match (insightOf : SegmentInfo → InsightResult)
    (sliceOf : SegmentInfo → String) (vid : String) (cands : List SegmentInfo) (db : Db) :
    (generate_insights insightOf sliceOf vid cands db).categories = db.categories
    ∧ (∀ link ∈ (generate_insights insightOf sliceOf vid cands db).segment_categories,
        link ∈ db.segment_categories ∨
          ∃ c ∈ db.categories, link.category_id = c.cat_id ∧
            ∃ cand ∈ cands, c.name ∈ (insightOf cand).categories)
    ∧ ∀ (cats : List CategoryRow) (segId : ℕ) (label : String),
        (∀ c ∈ cats, c.name ≠ label) → linkCategories cats segId [label] = [] := by
  refine ⟨generate_insights_categories_eq insightOf sliceOf vid cands db,
    generate_insights_links_mem insightOf sliceOf vid cands db, ?_⟩
  intro cats segId label h
  simp [linkCategories, findCategory_eq_none cats label h]

theorem generate_insights_category_exact_match_witness :
    linkCategories [⟨1, "Leadership", "leadership"⟩] 5 ["Unknown Topic"] = [] :=
  (generate_insights_category_exact_match exampleInsightOf exampleSliceOf "v" []
      exampleDb).2.2 [⟨1, "Leadership", "leadership"⟩] 5 "Unknown Topic" (by decide)

/-! ## C5: stage re-execution is not idempotent (corrected) -/

theorem generate_insights_cons (insightOf : SegmentInfo → InsightResult)
    (sliceOf : SegmentInfo → String) (vid : String) (cand : SegmentInfo)
    (tl : List SegmentInfo) (db : Db) :
    generate_insights insightOf sliceOf vid (cand :: tl) db
      = generate_insights insightOf sliceOf vid tl (insightStep insightOf sliceOf vid db cand) :=
  rfl

theorem insightStep_segments_length (insightOf : SegmentInfo → InsightResult)
    (sliceOf : SegmentInfo → String) (vid : String) (db : Db) (cand : SegmentInfo) :
    (insightStep insightOf sliceOf vid db cand).segments.length
      = db.segments.length + 1 := by
  simp [insightStep]

theorem insightStep_countP_key (insightOf : SegmentInfo → InsightResult)
    (sliceOf : SegmentInfo → String) (vid : String) (db : Db) (cand : SegmentInfo)
    (k : String × Int × Int) :
    ((insightStep insightOf sliceOf vid db cand).segments.countP
        fun r => decide (segKey r = k))
      = (db.segments.countP fun r => decide (segKey r = k))
        + if decide ((vid, cand.start_time, cand.end_time) = k) = true then 1 else 0 := by
  simp [insightStep, List.countP_append, List.countP_cons, segKey]

theorem generate_insights_segments_length (insightOf : SegmentInfo → InsightResult)
    (sliceOf : SegmentInfo → String) (vid : String) (cands : List SegmentInfo) (db : Db) :
    (generate_insights insightOf sliceOf vid cands db).segments.length
      = db.segments.length + cands.length := by
  induction cands generalizing db with
  | nil => rfl
  | cons cand tl ih =>
    rw [generate_insights_cons, ih, insightStep_segments_length, List.length_cons]
    omega

theorem generate_insights_countP_key (insightOf : SegmentInfo → InsightResult)
    (sliceOf : SegmentInfo → String) (vid : String) (cands : List SegmentInfo) (db : Db)
    (k : String × Int × Int) :
    ((generate_insights insightOf sliceOf vid cands db).segments.countP
        fun r => decide (segKey r = k))
      = (db.segments.countP fun r => decide (segKey r = k))
        + cands.countP fun cand => decide ((vid, cand.start_time, cand.end_time) = k) := by
  induction cands generalizing db with
  | nil => rfl
  | cons cand tl ih =>
    rw [generate_insights_cons, ih, insightStep_countP_key, List.countP_cons]
    omega

theorem setEmbedding_segIds (segs : List SegmentRow) (segId pid : ℕ) :
    (setEmbedding segs segId pid).map (fun s => s.seg_id)
      = segs.map fun s => s.seg_id := by
  induction segs with
  | nil => rfl
  | cons hd tl ih =>
    simp only [setEmbedding, List.map_cons] at ih ⊢
    by_cases h : hd.seg_id = segId
    · rw [if_pos h, ih]
    · rw [if_neg h, ih]

theorem any_segId_eq (l l' : List SegmentRow)
    (h : (l.map fun s => s.seg_id) = l'.map fun s => s.seg_id) (j : ℕ) :
    (l.any fun s => decide (s.seg_id = j)) = l'.any fun s => decide (s.seg_id = j) := by
  have h1 : ∀ m : List SegmentRow,
      (m.any fun s => decide (s.seg_id = j))
        = (m.map fun s => s.seg_id).any fun n => decide (n = j) := by
    intro m
    induction m with
    | nil => rfl
    | cons a t iht => simp [List.any_cons, iht]
  rw [h1, h1, h]

theorem create_embeddings_cons (i : ℕ) (tl : List ℕ) (pvid : String)
    (st : Db × VectorIndex) :
    create_embeddings (i :: tl) pvid st = create_embeddings tl pvid (embedStep pvid st i) :=
  rfl

theorem embedStep_segIds (pvid : String) (st : Db × VectorIndex) (i : ℕ) :
    ((embedStep pvid st i).1.segments.map fun s => s.seg_id)
      = st.1.segments.map fun s => s.seg_id := by
  by_cases h : (st.1.segments.any fun s => decide (s.seg_id = i)) = true
  · rw [embedStep, if_pos h]
    exact setEmbedding_segIds _ _ _
  · rw [embedStep, if_neg h]

theorem embedStep_points_length (pvid : String) (st : Db × VectorIndex) (i : ℕ) :
    (embedStep pvid st i).2.points.length
      = st.2.points.length
        + if (st.1.segments.any fun s => decide (s.seg_id = i)) = true then 1 else 0 := by
  by_cases h : (st.1.segments.any fun s => decide (s.seg_id = i)) = true
  · rw [embedStep, if_pos h, if_pos h]
    simp [store_segment_embedding]
  · rw [embedStep, if_neg h, if_neg h]
    rfl

theorem create_embeddings_segIds (ids : List ℕ) (pvid : String) (st : Db × VectorIndex) :
    ((create_embeddings ids pvid st).1.segments.map fun s => s.seg_id)
      = st.1.segments.map fun s => s.seg_id := by
  induction ids generalizing st with
  | nil => rfl
  | cons i tl ih =>
    rw [create_embeddings_cons, ih, embedStep_segIds]

theorem create_embeddings_points_length (ids : List ℕ) (pvid : String) (st : Db × VectorIndex) :
    (create_embeddings ids pvid st).2.points.length
      = st.2.points.length
        + ids.countP fun i => st.1.segments.any fun s => decide (s.seg_id = i) := by
  induction ids generalizing st with
  | nil => rfl
  | cons i tl ih =>
    rw [create_embeddings_cons, ih, List.countP_cons, embedStep_points_length]
    have hpred : (fun j => (embedStep pvid st i).1.segments.any
          fun s => decide (s.seg_id = j))
        = fun j => st.1.segments.any fun s => decide (s.seg_id = j) := by
      funext j
      exact any_segId_eq _ _ (embedStep_segIds pvid st i) j
    rw [hpred]
    omega

/-- C5 counterexample: re-running the insight stage on the same Video with the
same accepted candidate list is not idempotent - the second run inserts a
second Segment row, so the resulting row counts differ. -/
theorem generate_insights_rerun_counterexample :
    ¬ ((generate_insights exampleInsightOf exampleSliceOf "v" [exampleCandidate]
          (generate_insights exampleInsightOf exampleSliceOf "v" [exampleCandidate]
            ⟨[], [], [], 0, 0⟩)).segments.length
        = (generate_insights exampleInsightOf exampleSliceOf "v" [exampleCandidate]
            ⟨[], [], [], 0, 0⟩).segments.length) := by
  decide

/-- C5 (amended): single-stage re-execution is not idempotent.  Re-running the
insight stage appends one fresh Segment row per candidate - duplicating the
(video_id, start_time, end_time) key of the first run's row - and re-running
the embedding stage appends one fresh vector-index point per still-existing
segment id (fresh uuid point ids, no overwrite); duplicates are only removed
later by the maintenance sweep. -/
theorem stage_rerun_adds_rows (insightOf : SegmentInfo → InsightResult)
    (sliceOf : SegmentInfo → String) (vid : String) (cands : List SegmentInfo) (db : Db)
    (ids : List ℕ) (pvid : String) (st : Db × VectorIndex) :
    ((generate_insights insightOf sliceOf vid cands
          (generate_insights insightOf sliceOf vid cands db)).segments.length
        = db.segments.length + cands.length + cands.length)
    ∧ (∀ cand ∈ cands,
        2 ≤ (generate_insights insightOf sliceOf vid cands
              (generate_insights insightOf sliceOf vid cands db)).segments.countP
              fun r => decide (segKey r = (vid, cand.start_time, cand.end_time)))
    ∧ ((create_embeddings ids pvid (create_embeddings ids pvid st)).2.points.length
        = st.2.points.length
          + 2 * ids.countP fun i => st.1.segments.any fun s => decide (s.seg_id = i)) := by
  refine ⟨?_, ?_, ?_⟩
  · rw [generate_insights_segments_length, generate_insights_segments_length]
  · intro cand hcand
    rw [generate_insights_countP_key, generate_insights_countP_key]
    have hpos : 0 < cands.countP
        fun c => decide ((vid, c.start_time, c.end_time)
          = (vid, cand.start_time, cand.end_time)) := by
      rw [List.countP_pos_iff]
      exact ⟨cand, hcand, by simp⟩
    omega
  · rw [create_embeddings_points_length, create_embeddings_points_length]
    have hpred : (fun i => (create_embeddings ids pvid st).1.segments.any
          fun s => decide (s.seg_id = i))
        = fun i => st.1.segments.any fun s => decide (s.seg_id = i) := by
      funext i
      exact any_segId_eq _ _ (create_embeddings_segIds ids pvid st) i
    rw [hpred]
    omega

theorem stage_rerun_adds_rows_witness :
    2 ≤ (generate_insights exampleInsightOf exampleSliceOf "v" [exampleCandidate]
          (generate_insights exampleInsightOf exampleSliceOf "v" [exampleCandidate]
            ⟨[], [], [], 0, 0⟩)).segments.countP
          (fun r => decide (segKey r
            = ("v", exampleCandidate.start_time, exampleCandidate.end_time))) :=
  (stage_rerun_adds_rows exampleInsightOf exampleSliceOf "v" [exampleCandidate]
      ⟨[], [], [], 0, 0⟩ [] "v" (⟨[], [], [], 0, 0⟩, ⟨[], 0⟩)).2.1
    exampleCandidate (by decide)

/-! ## C6: reset to pending does not clear prior Segments (corrected) -/

theorem findVideo_map_pending (vs : List VideoRow) (x : String) :
    findVideo (vs.map fun u => if u.vid = x then { u with status := VStatus.pending } else u) x
      = (findVideo vs x).map fun u => { u with status := VStatus.pending } := by
  induction vs with
  | nil => rfl
  | cons w tl ih =>
    by_cases h : w.vid = x
    · simp [findVideo, h]
    · simp [findVideo, h, ih]

/-- C6 counterexample: resetting the failed example video (which owns one
prior Segment row) leaves that Segment in place - prior partial Segments are
not cleared before re-entry. -/
theorem reprocess_video_counterexample :
    (reprocess_video exampleAppDb "v1").map
        (fun db' => db'.segments.filter fun s => decide (s.video_id = "v1"))
      = some [exampleSegmentRow] := by
  decide

/-- C6 (amended): the reset-for-retry operation sets the Video's status back
to pending and re-enqueues processing from stage 1, but it does not clear the
Video's prior Segments (duplicate Segments from re-processing are only removed
by the maintenance sweep). -/
theorem reprocess_video_resets_status (db : AppDb) (videoId : String) (w : VideoRow)
    (h : findVideo db.videos videoId = some w) :
    ∃ db', reprocess_video db videoId = some db'
      ∧ findVideo db'.videos videoId = some { w with status := VStatus.pending }
      ∧ db'.segments = db.segments
      ∧ db'.queue = db.queue ++ [videoId] := by
  refine ⟨{ db with
      videos := db.videos.map fun u =>
        if u.vid = videoId then { u with status := VStatus.pending } else u
      queue := db.queue ++ [videoId] }, ?_, ?_, rfl, rfl⟩
  · simp [reprocess_video, h]
  · show findVideo (db.videos.map fun u =>
      if u.vid = videoId then { u with status := VStatus.pending } else u) videoId = _
    rw [findVideo_map_pending, h]
    rfl

theorem reprocess_video_resets_status_witness :
    ∃ db', reprocess_video exampleAppDb "v1" = some db'
      ∧ findVideo db'.videos "v1" = some { exampleFailedVideo with status := VStatus.pending }
      ∧ db'.segments = exampleAppDb.segments
      ∧ db'.queue = exampleAppDb.queue ++ ["v1"] :=
  reprocess_video_resets_status exampleAppDb "v1" exampleFailedVideo (by decide)

/-! ## C4: stage failure handling (corrected - stage 6 swallows exceptions) -/

theorem retryDrive_all_fail {α : Type} (stage : α → VideoRow → VideoRow × Bool) :
    ∀ es : List α, es ≠ [] →
      (∀ a ∈ es, ∀ u, (stage a u).1.status = VStatus.failed ∧ (stage a u).2 = true) →
      ∀ (n : ℕ) (v : VideoRow), (retryDrive stage n es v).1.status = VStatus.failed := by
  intro es
  induction es with
  | nil => exact fun hes => absurd rfl hes
  | cons a tl ih =>
    intro _ hstage n v
    obtain ⟨hf, hr⟩ := hstage a (List.mem_cons_self _ _) v
    rw [retryDrive.eq_def]
    simp only [hr, if_true]
    cases n with
    | zero => exact hf
    | succ m =>
      by_cases htl : tl = []
      · subst htl
        show (retryDrive stage m [] (stage a v).1).1.status = VStatus.failed
        rw [retryDrive.eq_def]
        exact hf
      · exact ih htl (fun a' ha' u => hstage a' (List.mem_cons_of_mem _ ha') u) m _

/-- C4 counterexample: an exception in stage 6 (`cleanup_and_finalize`) does
not set the Video's status to failed and is not re-raised to the task queue,
shown at a concrete input (a Video in the `embedding` state whose cleanup
raises): the stage swallows the exception and leaves the row untouched. -/
theorem cleanup_and_finalize_counterexample :
    (cleanup_and_finalize (.error "cleanup failed") 0 exampleEmbeddingVideo).1.status
        ≠ VStatus.failed
    ∧ (cleanup_and_finalize (.error "cleanup failed") 0 exampleEmbeddingVideo).2 = false := by
  decide

/-- C4 (amended): for stages 1 through 5 a stage exception sets the Video's
status to failed together with a human-readable processing_error and is
re-raised to the task queue, which retries up to the configured attempt
ceiling, and exhausting retries leaves the Video failed; stage 6
(`cleanup_and_finalize`) however catches every exception without setting
failed, without writing an error, and without re-raising, so its failures are
never retried. -/
theorem stage_failure_semantics :
    (∀ (e : String) (v : VideoRow),
        (download_audio (.error e) v).1.status = VStatus.failed
      ∧ (download_audio (.error e) v).1.processing_error
          = some ("Audio download failed: " ++ e)
      ∧ (download_audio (.error e) v).2 = true)
  ∧ (∀ (e : String) (v : VideoRow), ∃ vf : VideoRow,
        (transcribe_audio (.error e) v).1.getLast? = some vf
      ∧ vf.status = VStatus.failed
      ∧ vf.processing_error = some ("Transcription failed: " ++ e)
      ∧ (transcribe_audio (.error e) v).2 = true)
  ∧ (∀ (e : String) (v : VideoRow),
        (segment_transcript (.error e) v).1.status = VStatus.failed
      ∧ (segment_transcript (.error e) v).1.processing_error
          = some ("Segmentation failed: " ++ e)
      ∧ (segment_transcript (.error e) v).2 = true)
  ∧ (∀ (e : String) (v : VideoRow),
        (generate_insights_task (.error e) v).1.status = VStatus.failed
      ∧ (generate_insights_task (.error e) v).1.processing_error
          = some ("Insight generation failed: " ++ e)
      ∧ (generate_insights_task (.error e) v).2 = true)
  ∧ (∀ (e : String) (v : VideoRow),
        (create_embeddings_task (.error e) v).1.status = VStatus.failed
      ∧ (create_embeddings_task (.error e) v).1.processing_error
          = some ("Embedding failed: " ++ e)
      ∧ (create_embeddings_task (.error e) v).2 = true)
  ∧ (∀ {α : Type} (stage : α → VideoRow → VideoRow × Bool) (es : List α), es ≠ [] →
        (∀ a ∈ es, ∀ u, (stage a u).1.status = VStatus.failed ∧ (stage a u).2 = true) →
        ∀ (n : ℕ) (v : VideoRow), (retryDrive stage n es v).1.status = VStatus.failed)
  ∧ (∀ (e : String) (now : ℕ) (v : VideoRow),
        cleanup_and_finalize (.error e) now v = (v, false)) := by
  refine ⟨fun e v => ⟨rfl, rfl, rfl⟩, fun e v => ⟨_, rfl, rfl, rfl, rfl⟩,
    fun e v => ⟨rfl, rfl, rfl⟩, fun e v => ⟨rfl, rfl, rfl⟩, fun e v => ⟨rfl, rfl, rfl⟩,
    ?_, fun e now v => rfl⟩
  intro α stage es hes hstage n v
  exact retryDrive_all_fail stage es hes hstage n v

theorem stage_failure_semantics_witness :
    (retryDrive download_audio 3 [Except.error "net down", Except.error "net down"]
        exampleEmbeddingVideo).1.status = VStatus.failed := by
  refine stage_failure_semantics.2.2.2.2.2.1 download_audio _ (by simp) ?_ 3
    exampleEmbeddingVideo
  intro a ha u
  rcases List.mem_cons.mp ha with rfl | ha'
  · exact ⟨(stage_failure_semantics.1 "net down" u).1,
      (stage_failure_semantics.1 "net down" u).2.2⟩
  · rcases List.mem_singleton.mp ha' with rfl
    exact ⟨(stage_failure_semantics.1 "net down" u).1,
      (stage_failure_semantics.1 "net down" u).2.2⟩

/-! ## C7: status and data are committed separately (corrected) -/

/-- C7 counterexample: on the transcribing stage's success path, a committed
state with the status already advanced to `transcribing` but the transcript
still absent is observable (it is the stage's first commit), at a concrete
input. -/
theorem transcribe_audio_counterexample :
    ∃ c ∈ (transcribe_audio (.ok ⟨"full text"⟩) exampleDownloadedVideo).1,
      c.status = VStatus.transcribing ∧ c.transcript = none := by
  decide

/-- C7 (amended): each stage commits its in-progress status and its data in
separate units of work: `transcribe_audio` first commits
`status := transcribing` with the transcript still absent, and only a second
commit writes the transcript (on success) or the failure fields, so an
intermediate state with the status advanced but the stage's data absent is
observable between the two commits. -/
theorem transcribe_audio_commit_split (work : Except String TranscriptResult) (v : VideoRow)
    (h : v.transcript = none) :
    ∃ rest, (transcribe_audio work v).1 = { v with status := VStatus.transcribing } :: rest
      ∧ ({ v with status := VStatus.transcribing } : VideoRow).transcript = none
      ∧ ∀ t, work = .ok t →
          (transcribe_audio work v).1
            = [{ v with status := VStatus.transcribing },
               { v with status := VStatus.transcribing, transcript := some t.full_text }] := by
  cases work with
  | ok t => exact ⟨_, rfl, h, fun t' ht => by cases ht; rfl⟩
  | error e => exact ⟨_, rfl, h, fun t' ht => by cases ht⟩

theorem transcribe_audio_commit_split_witness :
    ∃ rest, (transcribe_audio (.ok ⟨"full text"⟩) exampleDownloadedVideo).1
        = { exampleDownloadedVideo with status := VStatus.transcribing } :: rest
      ∧ ({ exampleDownloadedVideo with status := VStatus.transcribing } : VideoRow).transcript
          = none
      ∧ ∀ t, ((.ok ⟨"full text"⟩ : Except String TranscriptResult)) = .ok t →
          (transcribe_audio (.ok ⟨"full text"⟩) exampleDownloadedVideo).1
            = [{ exampleDownloadedVideo with status := VStatus.transcribing },
               { exampleDownloadedVideo with status := VStatus.transcribing, transcript := some t.full_text }] :=
  transcribe_audio_commit_split (.ok ⟨"full text"⟩) exampleDownloadedVideo (by decide)

/-! ## C1: reciprocal rank fusion -/

theorem dlookup_dictSet_self (d : List (SegmentId × ℚ)) (key : SegmentId) (v : ℚ) :
    dlookup (dictSet d key v) key = some v := by
  induction d with
  | nil => simp [dictSet, dlookup]
  | cons p d ih =>
    by_cases h : p.1 = key
    · simp [dictSet, dlookup, h]
    · simp [dictSet, dlookup, h, ih]

theorem dlookup_dictSet_ne (d : List (SegmentId × ℚ)) (key x : SegmentId) (v : ℚ)
    (h : key ≠ x) : dlookup (dictSet d key v) x = dlookup d x := by
  induction d with
  | nil => simp [dictSet, dlookup, h]
  | cons p d ih =>
    by_cases hp : p.1 = key
    · simp [dictSet, dlookup, hp, h, hp ▸ h]
    · simp [dictSet, dlookup, hp, ih]

theorem dlookup_dictAdd_self (d : List (SegmentId × ℚ)) (key : SegmentId) (v : ℚ) :
    dlookup (dictAdd d key v) key = some ((dlookup d key).getD 0 + v) := by
  induction d with
  | nil => simp [dictAdd, dlookup]
  | cons p d ih =>
    by_cases h : p.1 = key
    · simp [dictAdd, dlookup, h]
    · simp [dictAdd, dlookup, h, ih]

theorem dlookup_dictAdd_ne (d : List (SegmentId × ℚ)) (key x : SegmentId) (v : ℚ)
    (h : key ≠ x) : dlookup (dictAdd d key v) x = dlookup d x := by
  induction d with
  | nil => simp [dictAdd, dlookup, h]
  | cons p d ih =>
    by_cases hp : p.1 = key
    · simp [dictAdd, dlookup, hp, h, hp ▸ h]
    · simp [dictAdd, dlookup, hp, ih]

theorem dictSet_keys (d : List (SegmentId × ℚ)) (key : SegmentId) (v : ℚ) :
    (dictSet d key v).map Prod.fst
      = if key ∈ d.map Prod.fst then d.map Prod.fst else d.map Prod.fst ++ [key] := by
  induction d with
  | nil => simp [dictSet]
  | cons p d ih =>
    by_cases h : p.1 = key
    · simp [dictSet, h]
    · simp only [dictSet, if_neg h, List.map_cons, ih, List.mem_cons]
      by_cases hm : key ∈ d.map Prod.fst
      · simp [hm, Ne.symm h]
      · simp [hm, Ne.symm h]

theorem dictAdd_keys (d : List (SegmentId × ℚ)) (key : SegmentId) (v : ℚ) :
    (dictAdd d key v).map Prod.fst
      = if key ∈ d.map Prod.fst then d.map Prod.fst else d.map Prod.fst ++ [key] := by
  induction d with
  | nil => simp [dictAdd]
  | cons p d ih =>
    by_cases h : p.1 = key
    · simp [dictAdd, h]
    · simp only [dictAdd, if_neg h, List.map_cons, ih, List.mem_cons]
      by_cases hm : key ∈ d.map Prod.fst
      · simp [hm, Ne.symm h]
      · simp [hm, Ne.symm h]

theorem nodup_keys_dictSet (d : List (SegmentId × ℚ)) (key : SegmentId) (v : ℚ)
    (hd : (d.map Prod.fst).Nodup) : ((dictSet d key v).map Prod.fst).Nodup := by
  rw [dictSet_keys]
  by_cases hm : key ∈ d.map Prod.fst
  · simpa [hm] using hd
  · rw [if_neg hm]
    exact (List.perm_append_singleton key (d.map Prod.fst)).nodup_iff.mpr
      (List.nodup_cons.mpr ⟨hm, hd⟩)

theorem nodup_keys_dictAdd (d : List (SegmentId × ℚ)) (key : SegmentId) (v : ℚ)
    (hd : (d.map Prod.fst).Nodup) : ((dictAdd d key v).map Prod.fst).Nodup := by
  rw [dictAdd_keys]
  by_cases hm : key ∈ d.map Prod.fst
  · simpa [hm] using hd
  · rw [if_neg hm]
    exact (List.perm_append_singleton key (d.map Prod.fst)).nodup_iff.mpr
      (List.nodup_cons.mpr ⟨hm, hd⟩)

theorem nodup_keys_semanticPass (w : ℚ) (k : ℕ) (L : List SegmentId) :
    ∀ (r : ℕ) (d : List (SegmentId × ℚ)), (d.map Prod.fst).Nodup →
      ((semanticPass w k L r d).map Prod.fst).Nodup := by
  induction L with
  | nil => exact fun r d hd => hd
  | cons y rest ih =>
    intro r d hd
    exact ih (r + 1) _ (nodup_keys_dictSet _ _ _ hd)

theorem nodup_keys_keywordPass (w : ℚ) (k : ℕ) (L : List SegmentId) :
    ∀ (r : ℕ) (d : List (SegmentId × ℚ)), (d.map Prod.fst).Nodup →
      ((keywordPass w k L r d).map Prod.fst).Nodup := by
  induction L with
  | nil => exact fun r d hd => hd
  | cons y rest ih =>
    intro r d hd
    exact ih (r + 1) _ (nodup_keys_dictAdd _ _ _ hd)

theorem semanticPass_lookup_notMem (w : ℚ) (k : ℕ) (L : List SegmentId) (x : SegmentId)
    (hx : x ∉ L) :
    ∀ (r : ℕ) (d : List (SegmentId × ℚ)),
      dlookup (semanticPass w k L r d) x = dlookup d x := by
  induction L with
  | nil => exact fun r d => rfl
  | cons y rest ih =>
    intro r d
    have hxy : y ≠ x := fun h => hx (h ▸ List.mem_cons_self _ _)
    have hxr : x ∉ rest := fun h => hx (List.mem_cons_of_mem _ h)
    rw [semanticPass, ih hxr (r + 1) _, dlookup_dictSet_ne _ _ _ _ hxy]

theorem keywordPass_lookup_notMem (w : ℚ) (k : ℕ) (L : List SegmentId) (x : SegmentId)
    (hx : x ∉ L) :
    ∀ (r : ℕ) (d : List (SegmentId × ℚ)),
      dlookup (keywordPass w k L r d) x = dlookup d x := by
  induction L with
  | nil => exact fun r d => rfl
  | cons y rest ih =>
    intro r d
    have hxy : y ≠ x := fun h => hx (h ▸ List.mem_cons_self _ _)
    have hxr : x ∉ rest := fun h => hx (List.mem_cons_of_mem _ h)
    rw [keywordPass, ih hxr (r + 1) _, dlookup_dictAdd_ne _ _ _ _ hxy]

theorem rankOf_eq_none_iff (L : List SegmentId) (x : SegmentId) :
    rankOf L x = none ↔ x ∉ L := by
  induction L with
  | nil => simp [rankOf]
  | cons y rest ih =>
    by_cases h : y = x
    · simp [rankOf, h]
    · simp [rankOf, h, ih, Ne.symm h]

theorem semanticPass_lookup (w : ℚ) (k : ℕ) (L : List SegmentId) (hL : L.Nodup)
    (x : SegmentId) :
    ∀ (r : ℕ) (d : List (SegmentId × ℚ)),
      dlookup (semanticPass w k L r d) x
        = match rankOf L x with
          | some i => some (w / ((k : ℚ) + ((r + i : ℕ) : ℚ) + 1))
          | none => dlookup d x := by
  induction L with
  | nil => exact fun r d => rfl
  | cons y rest ih =>
    intro r d
    obtain ⟨hy, hrest⟩ := List.nodup_cons.mp hL
    by_cases hxy : y = x
    · subst hxy
      rw [semanticPass, semanticPass_lookup_notMem w k rest y hy (r + 1) _,
        dlookup_dictSet_self]
      simp [rankOf]
    · rw [semanticPass, ih hrest (r + 1) _]
      cases hrank : rankOf rest x with
      | none =>
        simp only [rankOf, if_neg hxy, hrank, Option.map_none']
        rw [dlookup_dictSet_ne _ _ _ _ hxy]
      | some i =>
        simp only [rankOf, if_neg hxy, hrank, Option.map_some']
        rw [show r + 1 + i = r + (i + 1) from by omega]

theorem keywordPass_lookup (w : ℚ) (k : ℕ) (L : List SegmentId) (hL : L.Nodup)
    (x : SegmentId) :
    ∀ (r : ℕ) (d : List (SegmentId × ℚ)),
      dlookup (keywordPass w k L r d) x
        = match rankOf L x with
          | some i => some ((dlookup d x).getD 0 + w / ((k : ℚ) + ((r + i : ℕ) : ℚ) + 1))
          | none => dlookup d x := by
  induction L with
  | nil => exact fun r d => rfl
  | cons y rest ih =>
    intro r d
    obtain ⟨hy, hrest⟩ := List.nodup_cons.mp hL
    by_cases hxy : y = x
    · subst hxy
      rw [keywordPass, keywordPass_lookup_notMem w k rest y hy (r + 1) _,
        dlookup_dictAdd_self]
      simp [rankOf]
    · rw [keywordPass, ih hrest (r + 1) _]
      cases hrank : rankOf rest x with
      | none =>
        simp only [rankOf, if_neg hxy, hrank, Option.map_none']
        rw [dlookup_dictAdd_ne _ _ _ _ hxy]
      | some i =>
        simp only [rankOf, if_neg hxy, hrank, Option.map_some']
        rw [dlookup_dictAdd_ne _ _ _ _ hxy,
          show r + 1 + i = r + (i + 1) from by omega]

theorem mem_of_rankOf_some (L : List SegmentId) (x : SegmentId) (i : ℕ)
    (h : rankOf L x = some i) : x ∈ L := by
  by_contra hc
  rw [(rankOf_eq_none_iff L x).mpr hc] at h
  cases h

theorem fused_dlookup (S K : List SegmentId) (hS : S.Nodup) (hK : K.Nodup)
    (wS wK : ℚ) (x : SegmentId) :
    dlookup (keywordPass wK 60 K 0 (semanticPass wS 60 S 0 [])) x
      = if x ∈ S ∨ x ∈ K
        then some (listContribution wS 60 S x + listContribution wK 60 K x)
        else none := by
  rw [keywordPass_lookup wK 60 K hK x 0 _]
  cases hrK : rankOf K x with
  | some i =>
    have hmemK : x ∈ K := mem_of_rankOf_some K x i hrK
    rw [semanticPass_lookup wS 60 S hS x 0 []]
    cases hrS : rankOf S x with
    | some j =>
      have hmemS : x ∈ S := mem_of_rankOf_some S x j hrS
      rw [if_pos (Or.inl hmemS)]
      simp [listContribution, hrS, hrK]
    | none =>
      rw [if_pos (Or.inr hmemK)]
      simp [listContribution, hrS, hrK, dlookup]
  | none =>
    have hnK : x ∉ K := (rankOf_eq_none_iff K x).mp hrK
    rw [semanticPass_lookup wS 60 S hS x 0 []]
    cases hrS : rankOf S x with
    | some j =>
      have hmemS : x ∈ S := mem_of_rankOf_some S x j hrS
      rw [if_pos (Or.inl hmemS)]
      simp [listContribution, hrS, hrK]
    | none =>
      have hnS : x ∉ S := (rankOf_eq_none_iff S x).mp hrS
      rw [if_neg (by tauto)]
      rfl

theorem mem_of_dlookup_some (d : List (SegmentId × ℚ)) (x : SegmentId) (q : ℚ)
    (h : dlookup d x = some q) : (x, q) ∈ d := by
  induction d with
  | nil => cases h
  | cons p d ih =>
    rw [dlookup] at h
    by_cases hp : p.1 = x
    · rw [if_pos hp] at h
      obtain ⟨p1, p2⟩ := p
      cases hp
      injection h with h2
      cases h2
      exact List.mem_cons_self _ _
    · rw [if_neg hp] at h
      exact List.mem_cons_of_mem _ (ih h)

theorem dlookup_of_mem_nodup (d : List (SegmentId × ℚ)) (hd : (d.map Prod.fst).Nodup)
    (p : SegmentId × ℚ) (hp : p ∈ d) : dlookup d p.1 = some p.2 := by
  induction d with
  | nil => cases hp
  | cons q d ih =>
    rw [List.map_cons] at hd
    obtain ⟨hq, hd'⟩ := List.nodup_cons.mp hd
    rcases List.mem_cons.mp hp with rfl | hp'
    · rw [dlookup, if_pos rfl]
    · have hne : q.1 ≠ p.1 := by
        intro he
        exact hq (he ▸ List.mem_map_of_mem Prod.fst hp')
      rw [dlookup, if_neg hne]
      exact ih hd' hp'

/-- C1: `hybrid_search` fuses the semantic and keyword ranked lists by
weighted reciprocal rank fusion - every fused entry's score is exactly
`0.7 / (60 + r + 1)` for its 0-indexed semantic rank `r` plus
`0.3 / (60 + r + 1)` for its keyword rank (a segment present in only one list
still scores, via a zero contribution from the other) - and the output is
sorted descending by fused score, truncated to `limit` entries, with every
segment of either input list present in the fused list before truncation. -/
theorem hybrid_search_rrf_fusion (S K : List SegmentId) (hS : S.Nodup) (hK : K.Nodup)
    (n : ℕ) :
    (∀ p ∈ hybrid_search S K n, p.2 = rrfScore S K p.1)
    ∧ (∀ p ∈ hybrid_search S K n, p.1 ∈ S ∨ p.1 ∈ K)
    ∧ (hybrid_search S K n).Sorted rrfGE
    ∧ (hybrid_search S K n).length ≤ n
    ∧ ∀ x, x ∈ S ∨ x ∈ K →
        ∃ q, (x, q) ∈ reciprocal_rank_fusion S K (7/10) (3/10) 60 ∧ q = rrfScore S K x := by
  have hkeys :
      ((keywordPass (3/10) 60 K 0 (semanticPass (7/10) 60 S 0 [])).map Prod.fst).Nodup :=
    nodup_keys_keywordPass _ _ _ _ _ (nodup_keys_semanticPass _ _ _ _ _ (by simp))
  have hmem_of : ∀ p ∈ hybrid_search S K n,
      p ∈ keywordPass (3/10) 60 K 0 (semanticPass (7/10) 60 S 0 []) := by
    intro p hp
    have h1 : p ∈ reciprocal_rank_fusion S K (7/10) (3/10) 60 :=
      (List.take_sublist n _).subset hp
    exact (List.perm_insertionSort rrfGE _).mem_iff.mp h1
  have hval : ∀ p ∈ hybrid_search S K n, p.2 = rrfScore S K p.1 ∧ (p.1 ∈ S ∨ p.1 ∈ K) := by
    intro p hp
    have h2 := dlookup_of_mem_nodup _ hkeys p (hmem_of p hp)
    rw [fused_dlookup S K hS hK (7/10) (3/10) p.1] at h2
    by_cases hm : p.1 ∈ S ∨ p.1 ∈ K
    · rw [if_pos hm] at h2
      injection h2 with h2
      exact ⟨h2.symm, hm⟩
    · rw [if_neg hm] at h2
      cases h2
  refine ⟨fun p hp => (hval p hp).1, fun p hp => (hval p hp).2, ?_, ?_, ?_⟩
  · exact List.Pairwise.sublist (List.take_sublist n _)
      (List.sorted_insertionSort rrfGE _)
  · show ((reciprocal_rank_fusion S K (7/10) (3/10) 60).take n).length ≤ n
    rw [List.length_take]
    exact min_le_left _ _
  · intro x hx
    have h2 : dlookup (keywordPass (3/10) 60 K 0 (semanticPass (7/10) 60 S 0 [])) x
        = some (rrfScore S K x) := by
      rw [fused_dlookup S K hS hK (7/10) (3/10) x, if_pos hx]
      rfl
    exact ⟨rrfScore S K x,
      (List.perm_insertionSort rrfGE _).mem_iff.mpr (mem_of_dlookup_some _ _ _ h2), rfl⟩

theorem hybrid_search_rrf_fusion_witness :
    (hybrid_search ["A", "B", "C"] ["B", "C", "D"] 4).Sorted rrfGE :=
  (hybrid_search_rrf_fusion ["A", "B", "C"] ["B", "C", "D"] (by decide) (by decide) 4).2.2.1

/-! ## C10: maintenance de-duplication -/

/-- C10: for every duplicate group (same `(video_id, start_time, end_time)`),
the sweep keeps exactly one Segment - one with the earliest `created_at` - and
deletes every other Segment of the group, also removing each deleted Segment's
vector-index point whenever it carries an `embedding_id`. -/
theorem cleanup_duplicates_keeps_earliest (segs : List SegmentRow) (index : List String)
    (hids : (segs.map fun s => s.seg_id).Nodup) :
    ∀ k, 1 < (groupFor segs k).length →
      ∃ kept, kept ∈ groupFor segs k
        ∧ kept ∈ (cleanup_duplicates segs index).1
        ∧ (∀ t ∈ groupFor segs k, kept.created_at ≤ t.created_at)
        ∧ (∀ s ∈ (cleanup_duplicates segs index).1, segKey s = k → s = kept)
        ∧ ∀ t ∈ groupFor segs k, t ≠ kept →
            t ∉ (cleanup_duplicates segs index).1
            ∧ ∀ pid, t.embedding_id = some pid → pid ∉ (cleanup_duplicates segs index).2 := by
  intro k hk
  have hsegs_nodup : segs.Nodup := List.Nodup.of_map _ hids
  have hkey_of_mem : ∀ k', ∀ t ∈ groupFor segs k', segKey t = k' := by
    intro k' t ht
    have h1 := (List.mem_filter.mp ht).2
    simpa using h1
  have hmem_group : ∀ t ∈ segs, segKey t = k → t ∈ groupFor segs k := fun t ht hkey =>
    List.mem_filter.mpr ⟨ht, by simp [hkey]⟩
  have hgroup_nodup : (groupFor segs k).Nodup := hsegs_nodup.filter _
  have hperm := List.perm_insertionSort createdLE (groupFor segs k)
  have hsorted_nodup : (List.insertionSort createdLE (groupFor segs k)).Nodup :=
    hperm.nodup_iff.mpr hgroup_nodup
  have hne : List.insertionSort createdLE (groupFor segs k) ≠ [] := by
    intro h0
    have hlen := hperm.length_eq
    rw [h0] at hlen
    simp only [List.length_nil] at hlen
    omega
  obtain ⟨kept, tail, hcons⟩ := List.exists_cons_of_ne_nil hne
  have hdel : deletedInGroup segs k = tail := by
    rw [deletedInGroup, hcons]
    rfl
  have hkept_group : kept ∈ groupFor segs k := by
    refine hperm.mem_iff.mp ?_
    rw [hcons]
    exact List.mem_cons_self _ _
  have hkept_key : segKey kept = k := hkey_of_mem k kept hkept_group
  have hkept_segs : kept ∈ segs := (List.mem_filter.mp hkept_group).1
  have hsorted := List.sorted_insertionSort createdLE (groupFor segs k)
  rw [hcons] at hsorted
  have hmin : ∀ t ∈ groupFor segs k, kept.created_at ≤ t.created_at := by
    intro t ht
    have hts : t ∈ kept :: tail := by
      rw [← hcons]
      exact hperm.mem_iff.mpr ht
    rcases List.mem_cons.mp hts with rfl | htail
    · exact le_refl _
    · exact (List.pairwise_cons.mp hsorted).1 t htail
  have hkept_not_tail : kept ∉ tail := by
    rw [hcons] at hsorted_nodup
    exact (List.nodup_cons.mp hsorted_nodup).1
  have hk_dup : k ∈ duplicateKeys segs := by
    rw [duplicateKeys, List.mem_filter]
    refine ⟨List.mem_dedup.mpr ?_, by simpa using hk⟩
    exact hkept_key ▸ List.mem_map_of_mem segKey hkept_segs
  have hdel_sub : ∀ k', ∀ u ∈ deletedInGroup segs k', u ∈ groupFor segs k' := by
    intro k' u hu
    exact (List.perm_insertionSort createdLE _).mem_iff.mp ((List.tail_sublist _).subset hu)
  have hdelIds_mem : ∀ j : ℕ, (j ∈ (duplicateKeys segs).flatMap fun k' =>
      (deletedInGroup segs k').map fun s => s.seg_id) ↔
      ∃ k' ∈ duplicateKeys segs, ∃ u ∈ deletedInGroup segs k', u.seg_id = j := by
    intro j
    simp [List.mem_flatMap, List.mem_map]
  have hkept_alive : kept.seg_id ∉ (duplicateKeys segs).flatMap fun k' =>
      (deletedInGroup segs k').map fun s => s.seg_id := by
    rw [hdelIds_mem]
    rintro ⟨k', hk', u, hu, hid⟩
    have hu_group := hdel_sub k' u hu
    have hu_segs : u ∈ segs := (List.mem_filter.mp hu_group).1
    have hu_eq : u = kept := List.inj_on_of_nodup_map hids hu_segs hkept_segs hid
    subst hu_eq
    have hu_key : segKey u = k' := hkey_of_mem k' u hu_group
    rw [hkept_key] at hu_key
    subst hu_key
    rw [hdel] at hu
    exact hkept_not_tail hu
  have hsurv : ∀ s : SegmentRow, s ∈ (cleanup_duplicates segs index).1 ↔
      s ∈ segs ∧ s.seg_id ∉ (duplicateKeys segs).flatMap fun k' =>
        (deletedInGroup segs k').map fun u => u.seg_id := by
    intro s
    simp [cleanup_duplicates, List.mem_filter]
  have hpoints : ∀ pid : String, pid ∈ (cleanup_duplicates segs index).2 →
      pid ∉ (duplicateKeys segs).flatMap fun k' =>
        (deletedInGroup segs k').filterMap fun u => u.embedding_id := by
    intro pid hp
    have h1 := (List.mem_filter.mp hp).2
    simpa using h1
  have htail_of : ∀ t ∈ groupFor segs k, t ≠ kept → t ∈ tail := by
    intro t ht htne
    have hts : t ∈ kept :: tail := by
      rw [← hcons]
      exact hperm.mem_iff.mpr ht
    rcases List.mem_cons.mp hts with rfl | h
    · exact absurd rfl htne
    · exact h
  refine ⟨kept, hkept_group, (hsurv kept).mpr ⟨hkept_segs, hkept_alive⟩, hmin, ?_, ?_⟩
  · intro s hs hskey
    obtain ⟨hs_segs, hs_alive⟩ := (hsurv s).mp hs
    have hs_group : s ∈ groupFor segs k := hmem_group s hs_segs hskey
    by_contra hne'
    have hs_tail : s ∈ tail := htail_of s hs_group hne'
    refine hs_alive ((hdelIds_mem _).mpr ⟨k, hk_dup, s, ?_, rfl⟩)
    rw [hdel]
    exact hs_tail
  · intro t ht htne
    have ht_del : t ∈ deletedInGroup segs k := by
      rw [hdel]
      exact htail_of t ht htne
    constructor
    · intro habs
      obtain ⟨_, h_alive⟩ := (hsurv t).mp habs
      exact h_alive ((hdelIds_mem _).mpr ⟨k, hk_dup, t, ht_del, rfl⟩)
    · intro pid hpid hmem2
      refine hpoints pid hmem2 ?_
      rw [List.mem_flatMap]
      exact ⟨k, hk_dup, List.mem_filterMap.mpr ⟨t, ht_del, hpid⟩⟩

theorem cleanup_duplicates_keeps_earliest_witness :
    ∃ kept, kept ∈ groupFor [exampleSegmentRow, exampleSegmentRow2] ("v1", 0, 90)
      ∧ kept ∈ (cleanup_duplicates [exampleSegmentRow, exampleSegmentRow2] ["p1", "p2"]).1
      ∧ (∀ t ∈ groupFor [exampleSegmentRow, exampleSegmentRow2] ("v1", 0, 90),
          kept.created_at ≤ t.created_at)
      ∧ (∀ s ∈ (cleanup_duplicates [exampleSegmentRow, exampleSegmentRow2] ["p1", "p2"]).1,
          segKey s = ("v1", 0, 90) → s = kept)
      ∧ ∀ t ∈ groupFor [exampleSegmentRow, exampleSegmentRow2] ("v1", 0, 90), t ≠ kept →
          t ∉ (cleanup_duplicates [exampleSegmentRow, exampleSegmentRow2] ["p1", "p2"]).1
          ∧ ∀ pid, t.embedding_id = some pid →
              pid ∉ (cleanup_duplicates [exampleSegmentRow, exampleSegmentRow2] ["p1", "p2"]).2 :=
  cleanup_duplicates_keeps_earliest [exampleSegmentRow, exampleSegmentRow2] ["p1", "p2"]
    (by decide) ("v1", 0, 90) (by decide)

end BizSkill
